import Mathlib

/-!
Verification of the grammar-driven PEG parser in `json_parser.py`.

The development shallowly embeds the source file:

* the `split` helper and the `grammar` compiler (Python `str.strip`,
  `str.split` with a literal separator and `maxsplit`, whitespace split,
  dict insertion with overwrite) — `ValueError` from unpacking a malformed
  line is modelled as `Option.none`;
* the subset of Python `re` the grammar's terminals exercise (character
  classes, `* + ?` greedy quantifiers, alternation, groups, `\s`), with
  Python's backtracking order, group numbering by opening parenthesis and
  `m.group(1)`/`m.end()` observations;
* the interpreter `parse` / `parse_atom` / `parse_sequence`.  The recursion
  is indexed by fuel (source recursion is unbounded; left-recursive
  grammars diverge); `Option.none` of the outer layer models the absence of
  a normal return (non-termination, or a raised exception such as the
  `TypeError` Python would raise on `[atom] + tree` with a non-list tree —
  an arm proved unreachable below).  Python's `None` tree is `PTree.pynone`
  and a `None` remainder is `Option.none` in the second component, so the
  sentinel `Fail = (None, None)` is `(PTree.pynone, none)`.
* the `memo` decorator twice: generically over dynamically-typed values
  (for its `TypeError` fallback arm), and as `mrunP`, the interpreter with
  the per-`parse`-call cache of `(atom, text) ↦ result` threaded
  explicitly.  `runP` is the same interpreter with the cache dropped; their
  agreement is proved (claim C4), which justifies using `runP` elsewhere.
-/

set_option maxRecDepth 100000

namespace JsonParser

/-! ## Python string helpers -/

/-- Whitespace characters of Python `str.strip` / `str.split()` / `re` `\s`
(the ASCII ones; all inputs in this repository are ASCII). -/
def pyIsSpace (c : Char) : Bool :=
  c = ' ' || c = '\t' || c = '\n' || c = '\r' || c = '\x0b' || c = '\x0c'

/-- `str.strip` on a character list. -/
def pstripL (l : List Char) : List Char :=
  ((l.dropWhile pyIsSpace).reverse.dropWhile pyIsSpace).reverse

/-- `str.strip`. -/
def pstrip (s : String) : String := String.mk (pstripL s.data)

/-- Does `sep` occur at the head of `s`? -/
def beginsWith : List Char → List Char → Bool
  | _, [] => true
  | [], _ :: _ => false
  | c :: cs, d :: ds => if c = d then beginsWith cs ds else false

/-- First occurrence of `sep` in `s`: the part before it and the part after. -/
def findSep : List Char → List Char → Option (List Char × List Char)
  | s, sep =>
    if beginsWith s sep then some ([], s.drop sep.length)
    else
      match s with
      | [] => none
      | c :: rest => (findSep rest sep).map (fun pq => (c :: pq.1, pq.2))

theorem beginsWith_append : ∀ (s sep : List Char), beginsWith s sep = true →
    s = sep ++ s.drop sep.length := by
  intro s sep
  induction sep generalizing s with
  | nil => intro _; simp
  | cons d ds ih =>
    intro h
    match s with
    | [] => simp [beginsWith] at h
    | c :: cs =>
      simp only [beginsWith] at h
      split at h
      · next hc =>
        subst hc
        simpa using ih cs h
      · exact absurd h (by simp)

theorem findSep_eq : ∀ (s sep pre post : List Char),
    findSep s sep = some (pre, post) → s = pre ++ sep ++ post := by
  intro s sep
  induction s with
  | nil =>
    intro pre post h
    rw [findSep] at h
    split at h
    · next hb =>
      simp only [Option.some.injEq, Prod.mk.injEq] at h
      obtain ⟨h1, h2⟩ := h
      subst h1; subst h2
      simpa using beginsWith_append [] sep hb
    · simp at h
  | cons c cs ih =>
    intro pre post h
    rw [findSep] at h
    split at h
    · next hb =>
      simp only [Option.some.injEq, Prod.mk.injEq] at h
      obtain ⟨h1, h2⟩ := h
      subst h1; subst h2
      simpa using beginsWith_append (c :: cs) sep hb
    · simp only [Option.map_eq_some'] at h
      obtain ⟨⟨p1, p2⟩, hf, heq⟩ := h
      simp only [Prod.mk.injEq] at heq
      obtain ⟨h1, h2⟩ := heq
      subst h2
      cases pre with
      | nil => simp at h1
      | cons x xs =>
        simp only [List.cons.injEq] at h1
        obtain ⟨hx, hxs⟩ := h1
        subst hx; subst hxs
        simpa using ih p1 _ hf

theorem findSep_post_length {s sep pre post : List Char} (hsep : sep ≠ [])
    (h : findSep s sep = some (pre, post)) : post.length < s.length := by
  have h2 := findSep_eq s sep pre post h
  have h3 : s.length = pre.length + sep.length + post.length := by
    rw [h2]; simp [List.length_append]; omega
  have h4 : 0 < sep.length := List.length_pos.mpr hsep
  omega

/-- Decrement an optional `maxsplit` budget (`none` is Python's `-1`). -/
def decMax : Option Nat → Option Nat
  | none => none
  | some n => some (n - 1)

/-- Python `str.split(sep, maxsplit)` on character lists (raw pieces,
empty pieces kept, as Python does for an explicit separator).  Structural
recursion on a fuel that `pySplitSep` instantiates adequately: each
recursive step strictly shrinks the text (`findSep_post_length`). -/
def pySplitSepF : Nat → List Char → List Char → Option Nat → List (List Char)
  | 0, s, _, _ => [s]
  | f + 1, s, sep, maxs =>
    if sep = [] then [s]
    else if maxs = some 0 then [s]
    else
      match findSep s sep with
      | none => [s]
      | some (pre, post) => pre :: pySplitSepF f post sep (decMax maxs)

def pySplitSep (s sep : List Char) (maxs : Option Nat) : List (List Char) :=
  pySplitSepF (s.length + 1) s sep maxs

/-- The source's `split` helper in separator mode:
`[t.strip() for t in text.strip().split(sep, maxsplit) if t]`. -/
def split (text sep : String) (maxs : Option Nat) : List String :=
  ((pySplitSep (pstripL text.data) sep.data maxs).filter (fun p => p ≠ [])).map
    (fun p => String.mk (pstripL p))

/-- Whitespace-mode `str.split()`: split on runs of whitespace, no empties. -/
def splitWsAux : List Char → List Char → List (List Char)
  | [], acc => if acc = [] then [] else [acc.reverse]
  | c :: rest, acc =>
    if pyIsSpace c then
      if acc = [] then splitWsAux rest [] else acc.reverse :: splitWsAux rest []
    else splitWsAux rest (c :: acc)

/-- The source's `split` helper with `sep=None` (used for atoms of an
alternative): whitespace split; the strip and the emptiness filter are
no-ops in this mode. -/
def splitWs (text : String) : List String := (splitWsAux text.data []).map String.mk

/-! ## The grammar compiler -/

/-- `description.replace('\t', ' ')`. -/
def strReplaceTab (s : String) : String :=
  String.mk (s.data.map (fun c => if c = '\t' then ' ' else c))

/-- One alternative is a sequence of atoms; a rule is an ordered list of
alternatives. -/
abbrev Alts := List (List String)

/-- A compiled grammar.  Python's dict `{' ': whitespace} ∪ rules` is split
into the reserved whitespace entry and the rule table; a line's `lhs` is a
stripped non-empty string and so never collides with the one-space key
(claim C10). -/
structure PGrammar where
  ws : String
  rules : List (String × Alts)
deriving DecidableEq, Repr

/-- Dict lookup. -/
def alookup : List (String × Alts) → String → Option Alts
  | [], _ => none
  | (k, v) :: rest, key => if k = key then some v else alookup rest key

/-- Dict insertion `G[lhs] = v`: overwrite the value of an existing key in
place, else append the new key at the end (Python dict update order). -/
def dinsert : List (String × Alts) → String → Alts → List (String × Alts)
  | [], k, v => [(k, v)]
  | (a, b) :: rest, k, v =>
    if a = k then (k, v) :: rest else (a, b) :: dinsert rest k v

/-- The loop body of `grammar`: `lhs, rhs = split(line, ' => ', 1)`
(a `ValueError` when the unpacking fails is `none`), then
`G[lhs] = tuple(map(split, split(rhs, ' | ')))`. -/
def buildRules : List (String × Alts) → List String → Option (List (String × Alts))
  | G, [] => some G
  | G, line :: rest =>
    match split line " => " (some 1) with
    | [lhs, rhs] => buildRules (dinsert G lhs ((split rhs " | " none).map splitWs)) rest
    | _ => none

/-- The lines the compiler iterates over (tabs replaced, then the stripped
description split on newlines by the `split` helper). -/
def glines (description : String) : List String :=
  split (strReplaceTab description) "\n" none

/-- The source's `grammar(description, whitespace)`. -/
def grammar (description whitespace : String) : Option PGrammar :=
  (buildRules [] (glines description)).map (fun rules => ⟨whitespace, rules⟩)

/-! ## The regular-expression subset -/

/-- One member of a character class. -/
inductive CItem where
  | single : Char → CItem
  | range : Char → Char → CItem
deriving DecidableEq, Repr

/-- Regular expressions as Python `re` parses the terminal patterns:
`grp n` is the capture group numbered `n` by its opening parenthesis. -/
inductive RE where
  | eps
  | dot
  | wsc
  | chr : Char → RE
  | cls : Bool → List CItem → RE
  | cat : RE → RE → RE
  | alt : RE → RE → RE
  | star : RE → RE
  | grp : Nat → RE → RE
deriving DecidableEq, Repr

/-- Does character `c` satisfy the class (negated when `neg`)? -/
def classMatch (neg : Bool) (items : List CItem) (c : Char) : Bool :=
  let m := items.any (fun it =>
    match it with
    | .single d => c = d
    | .range a b => a ≤ c && c ≤ b)
  if neg then !m else m

/-- Suffix-or-nothing helper: either recurse and cons an item, or fail. -/
def consItem (it : CItem) : Option (List CItem × List Char) →
    Option (List CItem × List Char)
  | none => none
  | some (items, rest) => some (it :: items, rest)

/-- Parse the body of a `[...]` class.  `first` is true just after `[` or
`[^`, where `]` and `-` are literals, as in Python. -/
def reClassItems : Nat → List Char → Bool → Option (List CItem × List Char)
  | 0, _, _ => none
  | _ + 1, [], _ => none
  | f + 1, ']' :: rest, first =>
    if first then consItem (.single ']') (reClassItems f rest false)
    else some ([], rest)
  | f + 1, '-' :: rest, first =>
    if first then consItem (.single '-') (reClassItems f rest false)
    else
      match rest with
      | '-' :: c2 :: rest2 =>
        if c2 = ']' then consItem (.single '-') (reClassItems f rest false)
        else if c2 = '\\' then none
        else if c2 < '-' then none
        else consItem (.range '-' c2) (reClassItems f rest2 false)
      | _ => consItem (.single '-') (reClassItems f rest false)
  | f + 1, '\\' :: e :: rest, _ =>
    if e.isAlphanum then none
    else
      match rest with
      | '-' :: c2 :: rest2 =>
        if c2 = ']' then consItem (.single e) (reClassItems f rest false)
        else if c2 = '\\' then none
        else if c2 < e then none
        else consItem (.range e c2) (reClassItems f rest2 false)
      | _ => consItem (.single e) (reClassItems f rest false)
  | _ + 1, ['\\'], _ => none
  | f + 1, c :: rest, _ =>
    match rest with
    | '-' :: c2 :: rest2 =>
      if c2 = ']' then consItem (.single c) (reClassItems f rest false)
      else if c2 = '\\' then none
      else if c2 < c then none
      else consItem (.range c c2) (reClassItems f rest2 false)
    | _ => consItem (.single c) (reClassItems f rest false)

/-- Is this character a quantifier? -/
def isQuant : Option Char → Bool
  | some c => c = '*' || c = '+' || c = '?'
  | none => false

/-- Apply an optional postfix quantifier (greedy; a stacked quantifier, as
in a lazy `*?`, is unsupported). `+` and `?` are desugared. -/
def applyPostfix (a : RE) : List Char → Option (RE × List Char)
  | '*' :: rest => if isQuant rest.head? then none else some (.star a, rest)
  | '+' :: rest => if isQuant rest.head? then none else some (.cat a (.star a), rest)
  | '?' :: rest => if isQuant rest.head? then none else some (.alt a .eps, rest)
  | cs => some (a, cs)

/-- Recursion mode of the pattern parser: alternation level, concatenation
level, single atom. -/
inductive RMode where
  | alt
  | cat
  | one
deriving DecidableEq, Repr

/-- Parser for the supported `re` subset.  Returns the expression, the
unconsumed pattern characters, and the updated group counter. -/
def reP : Nat → RMode → List Char → Nat → Option (RE × List Char × Nat)
  | 0, _, _, _ => none
  | f + 1, .alt, cs, n =>
    match reP f .cat cs n with
    | none => none
    | some (a, cs1, n1) =>
      match cs1 with
      | '|' :: rest =>
        match reP f .alt rest n1 with
        | none => none
        | some (b, cs2, n2) => some (.alt a b, cs2, n2)
      | _ => some (a, cs1, n1)
  | f + 1, .cat, cs, n =>
    match cs with
    | [] => some (.eps, [], n)
    | ')' :: _ => some (.eps, cs, n)
    | '|' :: _ => some (.eps, cs, n)
    | _ =>
      match reP f .one cs n with
      | none => none
      | some (a, cs1, n1) =>
        match applyPostfix a cs1 with
        | none => none
        | some (a2, cs2) =>
          match reP f .cat cs2 n1 with
          | none => none
          | some (b, cs3, n3) => some (.cat a2 b, cs3, n3)
  | f + 1, .one, cs, n =>
    match cs with
    | [] => none
    | '(' :: '?' :: _ => none
    | '(' :: rest =>
      match reP f .alt rest (n + 1) with
      | none => none
      | some (a, cs1, n1) =>
        match cs1 with
        | ')' :: cs2 => some (.grp (n + 1) a, cs2, n1)
        | _ => none
    | '[' :: '^' :: rest =>
      match reClassItems f rest true with
      | none => none
      | some (items, cs1) => some (.cls true items, cs1, n)
    | '[' :: rest =>
      match reClassItems f rest true with
      | none => none
      | some (items, cs1) => some (.cls false items, cs1, n)
    | '\\' :: e :: rest =>
      if e = 's' then some (.wsc, rest, n)
      else if e.isAlphanum then none
      else some (.chr e, rest, n)
    | ['\\'] => none
    | '.' :: rest => some (.dot, rest, n)
    | '*' :: _ => none
    | '+' :: _ => none
    | '?' :: _ => none
    | '^' :: _ => none
    | '$' :: _ => none
    | '\x7b' :: _ => none
    | '\x7d' :: _ => none
    | ')' :: _ => none
    | '|' :: _ => none
    | c :: rest => some (.chr c, rest, n)

/-- Compile a whole pattern string (Python `re.compile`; `none` models an
unsupported construct or a pattern error). -/
def compilePat (pat : String) : Option RE :=
  match reP (4 * pat.length + 16) .alt pat.data 0 with
  | some (r, [], _) => some r
  | _ => none

/-- Captured group spans: `(number, start, stop)`, most recent first. -/
abbrev Groups := List (Nat × Nat × Nat)

def glookup : Groups → Nat → Option (Nat × Nat)
  | [], _ => none
  | (m, i, j) :: rest, n => if m = n then some (i, j) else glookup rest n

/-- Character at position `i`. -/
def charAt (s : List Char) (i : Nat) : Option Char := (s.drop i).head?

def reSize : RE → Nat
  | .eps => 1
  | .dot => 1
  | .wsc => 1
  | .chr _ => 1
  | .cls _ _ => 1
  | .cat a b => reSize a + reSize b + 1
  | .alt a b => reSize a + reSize b + 1
  | .star a => reSize a + 1
  | .grp _ a => reSize a + 1

/-- Backtracking matcher in continuation-passing style, reproducing
Python's preference order: alternatives left to right, quantifiers greedy,
group spans recorded on the success path only.  The star stops repeating a
body that consumed nothing. -/
def mmatch : Nat → RE → List Char → Nat → Groups →
    (Nat → Groups → Option (Nat × Groups)) → Option (Nat × Groups)
  | 0, _, _, _, _, _ => none
  | _ + 1, .eps, _, i, g, k => k i g
  | _ + 1, .dot, s, i, g, k =>
    match charAt s i with
    | some c => if c = '\n' then none else k (i + 1) g
    | none => none
  | _ + 1, .wsc, s, i, g, k =>
    match charAt s i with
    | some c => if pyIsSpace c then k (i + 1) g else none
    | none => none
  | _ + 1, .chr c, s, i, g, k =>
    match charAt s i with
    | some d => if d = c then k (i + 1) g else none
    | none => none
  | _ + 1, .cls neg items, s, i, g, k =>
    match charAt s i with
    | some d => if classMatch neg items d then k (i + 1) g else none
    | none => none
  | f + 1, .cat a b, s, i, g, k =>
    mmatch f a s i g (fun j g2 => mmatch f b s j g2 k)
  | f + 1, .alt a b, s, i, g, k =>
    match mmatch f a s i g k with
    | some r => some r
    | none => mmatch f b s i g k
  | f + 1, .star a, s, i, g, k =>
    match mmatch f a s i g
        (fun j g2 => if j = i then none else mmatch f (.star a) s j g2 k) with
    | some r => some r
    | none => k i g
  | f + 1, .grp n a, s, i, g, k =>
    mmatch f a s i g (fun j g2 => k j ((n, i, j) :: g2))

/-- Fuel that dominates the matcher's call depth for our patterns. -/
def reFuelFor (r : RE) (s : List Char) : Nat :=
  (reSize r + 4) * (s.length + 4) + 8

/-- `re.match(pat, text)` observations: `none` for an invalid pattern
(Python raises), `some none` for no match, otherwise the overall end offset
and the captured group spans. -/
def reFirst (pat text : String) : Option (Option (Nat × Groups)) :=
  (compilePat pat).map
    (fun r => mmatch (reFuelFor r text.data) r text.data 0 [] (fun j g => some (j, g)))

/-- `text[a:b]`. -/
def sliceStr (text : String) (a b : Nat) : String :=
  String.mk ((text.data.drop a).take (b - a))

/-! ## Parse results and the interpreter -/

/-- A dynamically-typed parse-tree value: Python's `None`, a matched
terminal string, or a list `[symbol, child, ...]`. -/
inductive PTree where
  | pynone : PTree
  | str : String → PTree
  | list : List PTree → PTree
deriving Repr

/-- The failure sentinel `Fail = (None, None)`. -/
def Fail : PTree × Option String := (PTree.pynone, none)

/-- `m.group(1)` as a tree: the matched slice, or Python's `None` when
group 1 did not participate in the match. -/
def group1val (text : String) (gs : Groups) : PTree :=
  match glookup gs 1 with
  | some (a, b) => PTree.str (sliceStr text a b)
  | none => PTree.pynone

/-- The terminal branch of `parse_atom`: match
`tokenizer % atom = grammar[' '] + '(' + atom + ')'` at the start of
`text`; on a match return `(m.group(1), text[m.end():])`, else `Fail`.
`none` models the exception Python would raise on an invalid pattern. -/
def matchTerminal (ws atom text : String) : Option (PTree × Option String) :=
  match reFirst (ws ++ "(" ++ atom ++ ")") text with
  | none => none
  | some none => some Fail
  | some (some (e, gs)) => some (group1val text gs, some (text.drop e))

/-- Python's `atom in grammar` and `grammar[atom]`: the reserved `' '` key
holds the whitespace pattern string, whose characters Python would iterate
as one-atom alternatives; any other key is looked up in the rule table. -/
def lookupAlts (g : PGrammar) (atom : String) : Option Alts :=
  if atom = " " then some (g.ws.data.map (fun c => [String.mk [c]]))
  else alookup g.rules atom

/-- The three mutually recursive activities of the interpreter: one atom,
the alternative list of a non-terminal, a sequence of atoms. -/
inductive PCmd where
  | atm : String → String → PCmd
  | alts : String → Alts → String → PCmd
  | seq : List String → String → PCmd
deriving DecidableEq, Repr

/-- The interpreter of `parse`, memoization dropped (see `mrunP` and claim
C4 for the memoized rendering).  Fuel decreases at every internal call;
exhaustion (`none`) models a computation that does not return. -/
def runP : Nat → PGrammar → PCmd → Option (PTree × Option String)
  | 0, _, _ => none
  | f + 1, g, .atm atom text =>
    match lookupAlts g atom with
    | some as => runP f g (.alts atom as text)
    | none => matchTerminal g.ws atom text
  | _ + 1, _, .alts _ [] _ => some Fail
  | f + 1, g, .alts atom (alt :: rest) text =>
    match runP f g (.seq alt text) with
    | none => none
    | some (_, none) => runP f g (.alts atom rest text)
    | some (tree, some rem) =>
      -- `return [atom] + tree, rem`; a non-list tree would raise `TypeError`
      -- in Python, an arm `runP_seq_list` proves unreachable.
      match tree with
      | .list l => some (.list (.str atom :: l), some rem)
      | _ => none
  | _ + 1, _, .seq [] text => some (.list [], some text)
  | f + 1, g, .seq (atom :: rest) text =>
    match runP f g (.atm atom text) with
    | none => none
    | some (_, none) => some Fail
    | some (tree, some t2) =>
      match runP f g (.seq rest t2) with
      | none => none
      | some (_, none) => some Fail
      | some (l2, some rem) =>
        match l2 with
        | .list l => some (.list (tree :: l), some rem)
        | _ => none

/-- `parse_atom(atom, text)`. -/
def parse_atom (f : Nat) (g : PGrammar) (atom text : String) :
    Option (PTree × Option String) := runP f g (.atm atom text)

/-- `parse_sequence(sequence, text)`. -/
def parse_sequence (f : Nat) (g : PGrammar) (s : List String) (text : String) :
    Option (PTree × Option String) := runP f g (.seq s text)

/-- The alternatives loop inside `parse_atom`. -/
def tryAlts (f : Nat) (g : PGrammar) (atom : String) (as : Alts) (text : String) :
    Option (PTree × Option String) := runP f g (.alts atom as text)

/-- `parse(start_symbol, text, grammar)`. -/
def parse (f : Nat) (start_symbol text : String) (g : PGrammar) :
    Option (PTree × Option String) := parse_atom f g start_symbol text

/-! ## The JSON fixture -/

/-- The `json_description` string, after Python's own string-literal escape
processing (`\\\\` is a double backslash in the file, hence a single
backslash pair here). -/
def json_description : String :=
  "\nobject   => [\x7b] members [\x7d]\nmembers  => pair [,] members | pair\npair     => string [:] value\nvalue    => object | array | number | string\narray    => [[] elements []]\nelements => value [,] elements | value\nnumber   => int frac exp | int frac | int exp | int\nint      => [-+]?[0-9]+\nfrac     => [.][0-9]+\nexp      => e[+-][0-9]+\nstring   => \"([^\"\\\\]|\\[\"\\/bfnrtu])*\"\n"

/-- `JSON = grammar(json_description, whitespace='\s*')` (the compile
succeeds; the fallback arm is dead, witnessed in claim C9). -/
def JSON : PGrammar :=
  match grammar json_description "\\s*" with
  | some g => g
  | none => ⟨"\\s*", []⟩

/-- `json_parse(text)`. -/
def json_parse (f : Nat) (text : String) : Option (PTree × Option String) :=
  parse f "value" text JSON

/-! ## The memoized interpreter

`parse_atom` is defined inside `parse` under the `@memo` decorator, so each
top-level `parse` call owns a fresh `cache` dict keyed by the argument
tuple `(atom, text)`.  Every call of `parse_atom` first consults the cache
and stores its freshly computed result afterwards.  The cache is threaded
explicitly. -/

/-- The memo cache: `(atom, text) ↦ result`, most recent first. -/
abbrev MCache := List (String × String × (PTree × Option String))

def clookup : MCache → String → String → Option (PTree × Option String)
  | [], _, _ => none
  | (a, t, r) :: rest, atom, text =>
    if a = atom && t = text then some r else clookup rest atom text

/-- The interpreter with the memo cache of `parse_atom` made explicit. -/
def mrunP : Nat → PGrammar → PCmd → MCache → Option ((PTree × Option String) × MCache)
  | 0, _, _, _ => none
  | f + 1, g, .atm atom text, c =>
    match clookup c atom text with
    | some r => some (r, c)
    | none =>
      match
        (match lookupAlts g atom with
         | some as => mrunP f g (.alts atom as text) c
         | none => (matchTerminal g.ws atom text).map (fun r => (r, c))) with
      | none => none
      | some (r, c2) => some (r, (atom, text, r) :: c2)
  | _ + 1, _, .alts _ [] _, c => some (Fail, c)
  | f + 1, g, .alts atom (alt :: rest) text, c =>
    match mrunP f g (.seq alt text) c with
    | none => none
    | some ((_, none), c2) => mrunP f g (.alts atom rest text) c2
    | some ((tree, some rem), c2) =>
      match tree with
      | .list l => some ((.list (.str atom :: l), some rem), c2)
      | _ => none
  | _ + 1, _, .seq [] text, c => some ((.list [], some text), c)
  | f + 1, g, .seq (atom :: rest) text, c =>
    match mrunP f g (.atm atom text) c with
    | none => none
    | some ((_, none), c2) => some (Fail, c2)
    | some ((tree, some t2), c2) =>
      match mrunP f g (.seq rest t2) c2 with
      | none => none
      | some ((_, none), c3) => some (Fail, c3)
      | some ((l2, some rem), c3) =>
        match l2 with
        | .list l => some ((.list (tree :: l), some rem), c3)
        | _ => none

/-- `parse` as the source runs it: memoized `parse_atom` on a fresh cache. -/
def memo_parse (f : Nat) (start_symbol text : String) (g : PGrammar) :
    Option ((PTree × Option String) × MCache) :=
  mrunP f g (.atm start_symbol text) []

/-! ## The `memo` decorator over dynamically-typed values

Claim C1 is about the wrapper itself, on an argument that defeats the
cache-key construction.  `PyVal` models the dynamic values involved;
`hashable` is Python hashability (strings yes, tuples of hashables yes,
lists no).  A wrapped function takes its positional arguments as a list
and raises `TypeError` (the `Except` error) on an arity mismatch. -/

inductive PyVal where
  | vstr : String → PyVal
  | vtuple : List PyVal → PyVal
  | vlist : List PyVal → PyVal

mutual

def pyvalHashable : PyVal → Bool
  | .vstr _ => true
  | .vtuple l => pyvalListHashable l
  | .vlist _ => false

def pyvalListHashable : List PyVal → Bool
  | [] => true
  | a :: rest => pyvalHashable a && pyvalListHashable rest

end

mutual

/-- Equality test on `PyVal` (dict key comparison). -/
def pyvalEq : PyVal → PyVal → Bool
  | .vstr a, .vstr b => a = b
  | .vtuple a, .vtuple b => pyvalListEq a b
  | .vlist a, .vlist b => pyvalListEq a b
  | _, _ => false

/-- Equality test on lists of `PyVal`. -/
def pyvalListEq : List PyVal → List PyVal → Bool
  | [], [] => true
  | a :: as2, b :: bs => pyvalEq a b && pyvalListEq as2 bs
  | _, _ => false

end

/-- A Python function of exactly two positional parameters, as called with
an argument list: any other arity raises `TypeError`. -/
def binFun (h : PyVal → PyVal → PyVal) : List PyVal → Except Unit PyVal
  | [a, b] => .ok (h a b)
  | _ => .error ()

/-- The memo cache of the decorator, keyed by the raw argument tuple. -/
def memoLookup : List (List PyVal × PyVal) → List PyVal → Option PyVal
  | [], _ => none
  | (k, v) :: rest, args => if pyvalListEq k args then some v else memoLookup rest args

/-- One call through the `memo` wrapper `_f(*args)`:
`try: return cache[args]` — constructing the key hashes the tuple `args`,
raising `TypeError` if some element is unhashable; on `KeyError` the wrapper
computes `cache[args] = result = f(*args)`; on `TypeError` it executes
`return f(args)`, i.e. it calls `f` with the single argument `args` (the
tuple itself), not with the unpacked arguments. -/
def memoCall (f : List PyVal → Except Unit PyVal)
    (cache : List (List PyVal × PyVal)) (args : List PyVal) :
    Except Unit (PyVal × List (List PyVal × PyVal)) :=
  if pyvalHashable (.vtuple args) then
    match memoLookup cache args with
    | some r => .ok (r, cache)
    | none =>
      match f args with
      | .ok r => .ok (r, (args, r) :: cache)
      | .error e => .error e
  else
    match f [PyVal.vtuple args] with
    | .ok r => .ok (r, cache)
    | .error e => .error e

/-! ## Basic properties of the interpreter -/

/-- `matchTerminal` marks failure with a `None` remainder only through the
full `Fail` pair. -/
theorem matchTerminal_none_rem {ws atom text : String} {t : PTree}
    (h : matchTerminal ws atom text = some (t, none)) : t = PTree.pynone := by
  unfold matchTerminal at h
  split at h
  · exact absurd h (by simp)
  · simp only [Fail, Option.some.injEq, Prod.mk.injEq] at h
    exact h.1.symm
  · simp at h

/-- A `None` remainder comes only as the sentinel `Fail = (None, None)`:
the tree is `None` with it, at every level of the interpreter. -/
theorem runP_none_rem : ∀ (f : Nat) (g : PGrammar) (c : PCmd) (t : PTree),
    runP f g c = some (t, none) → t = PTree.pynone := by
  intro f
  induction f with
  | zero => intro g c t h; simp [runP] at h
  | succ F IH =>
    intro g c t h
    match c with
    | .atm atom text =>
      rw [runP] at h
      split at h
      · exact IH g _ t h
      · exact matchTerminal_none_rem h
    | .alts atom as text =>
      match as with
      | [] =>
        rw [runP] at h
        simp only [Fail, Option.some.injEq, Prod.mk.injEq] at h
        exact h.1.symm
      | alt :: rest =>
        rw [runP] at h
        split at h
        · exact absurd h (by simp)
        · exact IH g _ t h
        · split at h
          · simp at h
          · exact absurd h (by simp)
    | .seq s text =>
      match s with
      | [] =>
        rw [runP] at h
        simp at h
      | atom :: rest =>
        rw [runP] at h
        split at h
        · exact absurd h (by simp)
        · simp only [Fail, Option.some.injEq, Prod.mk.injEq] at h
          exact h.1.symm
        · split at h
          · exact absurd h (by simp)
          · simp only [Fail, Option.some.injEq, Prod.mk.injEq] at h
            exact h.1.symm
          · split at h
            · simp at h
            · exact absurd h (by simp)

/-- A successful `parse_sequence` yields a Python list of child trees. -/
theorem runP_seq_list : ∀ (f : Nat) (g : PGrammar) (s : List String)
    (text : String) (t : PTree) (rem : String),
    runP f g (.seq s text) = some (t, some rem) → ∃ l, t = PTree.list l := by
  intro f g s text t rem h
  match f with
  | 0 => simp [runP] at h
  | F + 1 =>
    match s with
    | [] =>
      rw [runP] at h
      simp only [Option.some.injEq, Prod.mk.injEq] at h
      exact ⟨[], h.1.symm⟩
    | atom :: rest =>
      rw [runP] at h
      split at h
      · exact absurd h (by simp)
      · simp [Fail] at h
      · split at h
        · exact absurd h (by simp)
        · simp [Fail] at h
        · split at h
          · simp only [Option.some.injEq, Prod.mk.injEq] at h
            exact ⟨_, h.1.symm⟩
          · exact absurd h (by simp)

/-- A successful non-empty alternatives loop yields `[atom] + children`. -/
theorem runP_alts_shape : ∀ (f : Nat) (g : PGrammar) (atom : String) (as : Alts)
    (text : String) (t : PTree) (rem : String),
    runP f g (.alts atom as text) = some (t, some rem) →
    ∃ l, t = PTree.list (PTree.str atom :: l) := by
  intro f
  induction f with
  | zero => intro g atom as text t rem h; simp [runP] at h
  | succ F IH =>
    intro g atom as text t rem h
    match as with
    | [] => rw [runP] at h; simp [Fail] at h
    | alt :: rest =>
      rw [runP] at h
      split at h
      · exact absurd h (by simp)
      · exact IH g atom rest text t rem h
      · split at h
        · simp only [Option.some.injEq, Prod.mk.injEq] at h
          exact ⟨_, h.1.symm⟩
        · exact absurd h (by simp)

/-- Adding fuel preserves any computed result. -/
theorem runP_mono_succ : ∀ (f : Nat) (g : PGrammar) (c : PCmd)
    (r : PTree × Option String),
    runP f g c = some r → runP (f + 1) g c = some r := by
  intro f
  induction f with
  | zero => intro g c r h; simp [runP] at h
  | succ F IH =>
    intro g c r h
    match c with
    | .atm atom text =>
      rw [runP] at h ⊢
      split at h
      · exact IH g _ r h
      · exact h
    | .alts atom as text =>
      match as with
      | [] => rw [runP] at h ⊢; exact h
      | alt :: rest =>
        rw [runP] at h ⊢
        split at h
        · exact absurd h (by simp)
        · rename_i heq
          simp only [IH g _ _ heq]
          exact IH g _ r h
        · rename_i heq
          simp only [IH g _ _ heq]
          exact h
    | .seq s text =>
      match s with
      | [] => rw [runP] at h ⊢; exact h
      | atom :: rest =>
        rw [runP] at h ⊢
        split at h
        · exact absurd h (by simp)
        · rename_i heq
          simp only [IH g _ _ heq]
          exact h
        · rename_i heq
          simp only [IH g _ _ heq]
          split at h
          · exact absurd h (by simp)
          · rename_i heq2
            simp only [IH g _ _ heq2]
            exact h
          · rename_i heq2
            simp only [IH g _ _ heq2]
            exact h

theorem runP_mono {f f' : Nat} (hle : f ≤ f') (g : PGrammar) (c : PCmd)
    (r : PTree × Option String) (h : runP f g c = some r) : runP f' g c = some r := by
  induction hle with
  | refl => exact h
  | step _ ih => exact runP_mono_succ _ g c r ih

/-- Results computed at any two sufficient fuels agree. -/
theorem runP_det {f f' : Nat} {g : PGrammar} {c : PCmd}
    {r r' : PTree × Option String}
    (h : runP f g c = some r) (h' : runP f' g c = some r') : r = r' := by
  rcases Nat.le_total f f' with hle | hle
  · have := runP_mono hle g c r h
    rw [this] at h'; exact (Option.some.injEq _ _ ▸ h')
  · have := runP_mono hle g c r' h'
    rw [this] at h; exact (Option.some.injEq _ _ ▸ h).symm

/-! ## Properties of stripping and splitting -/

theorem dropWhile_length_le (p : Char → Bool) (l : List Char) :
    (List.dropWhile p l).length ≤ l.length := by
  induction l with
  | nil => simp
  | cons a l2 ih =>
    rw [List.dropWhile_cons]
    split
    · exact Nat.le_trans ih (by simp)
    · exact Nat.le_refl _

theorem dropWhile_head_false {l rest : List Char} {c : Char}
    (h : List.dropWhile pyIsSpace l = c :: rest) : pyIsSpace c = false := by
  induction l with
  | nil => simp [List.dropWhile] at h
  | cons a l2 ih =>
    rw [List.dropWhile_cons] at h
    split at h
    · exact ih h
    · next ha =>
      injection h with h1 _
      subst h1
      simpa using ha

theorem pstripL_def2 (l : List Char) :
    pstripL l = List.rdropWhile pyIsSpace (l.dropWhile pyIsSpace) := rfl

theorem pstripL_dropWhile (l : List Char) :
    List.dropWhile pyIsSpace (pstripL l) = pstripL l := by
  cases hm : pstripL l with
  | nil => simp
  | cons c cs =>
    rw [List.dropWhile_cons, if_neg ?hc]
    case hc =>
      rw [pstripL_def2] at hm
      obtain ⟨t, ht⟩ := List.rdropWhile_prefix pyIsSpace (l.dropWhile pyIsSpace)
      rw [hm] at ht
      have : List.dropWhile pyIsSpace l = c :: (cs ++ t) := by
        rw [← ht]; simp
      simp [dropWhile_head_false this]

theorem pstripL_rdropWhile (l : List Char) :
    List.rdropWhile pyIsSpace (pstripL l) = pstripL l := by
  rw [pstripL_def2]; exact List.rdropWhile_idempotent _ _

theorem pstripL_idem (l : List Char) : pstripL (pstripL l) = pstripL l := by
  conv_lhs => rw [pstripL_def2 (pstripL l)]
  rw [pstripL_dropWhile, pstripL_rdropWhile]

theorem pstrip_idem (s : String) : pstrip (pstrip s) = pstrip s := by
  simp [pstrip, pstripL_idem]

theorem pstrip_fix_data {s : String} (h : pstrip s = s) : pstripL s.data = s.data := by
  have := congrArg String.data h
  simpa [pstrip] using this

theorem strip_fix_head {l cs : List Char} {c : Char} (h : pstripL l = l)
    (hl : l = c :: cs) : pyIsSpace c = false := by
  have hd : List.dropWhile pyIsSpace l = l := by
    conv_lhs => rw [← h]
    rw [pstripL_dropWhile, h]
  rw [hl, List.dropWhile_cons] at hd
  split at hd
  · have h1 := congrArg List.length hd
    have h2 := dropWhile_length_le pyIsSpace cs
    simp at h1
    omega
  · next hns => simpa using hns

theorem strip_fix_last {l cs : List Char} {c : Char} (h : pstripL l = l)
    (hl : l.reverse = c :: cs) : pyIsSpace c = false := by
  have hr : List.rdropWhile pyIsSpace l = l := by
    conv_lhs => rw [← h]
    rw [pstripL_rdropWhile, h]
  rw [List.rdropWhile] at hr
  have hrr := congrArg List.reverse hr
  rw [List.reverse_reverse] at hrr
  rw [hl, List.dropWhile_cons] at hrr
  split at hrr
  · have h1 := congrArg List.length hrr
    have h2 := dropWhile_length_le pyIsSpace cs
    simp at h1
    omega
  · next hns => simpa using hns

theorem pstripL_nil_all {l : List Char} (h : pstripL l = []) :
    ∀ c ∈ l, pyIsSpace c := by
  rw [pstripL_def2] at h
  have h2 := List.rdropWhile_eq_nil_iff.mp h
  intro c hc
  rw [← List.takeWhile_append_dropWhile (p := pyIsSpace) (l := l)] at hc
  rcases List.mem_append.mp hc with hc | hc
  · exact List.mem_takeWhile_imp hc
  · exact h2 c hc

/-- `str.split(sep, 0)` leaves the text in one piece. -/
theorem pySplitSepF_zero (n : Nat) (s sep : List Char) :
    pySplitSepF n s sep (some 0) = [s] := by
  cases n with
  | zero => rfl
  | succ m =>
    rw [pySplitSepF]
    split
    · rfl
    · rw [if_pos rfl]

/-- Strings built from equal character lists are equal, and conversely. -/
theorem strmk_eq_empty_iff {l : List Char} : String.mk l = "" ↔ l = [] := by
  constructor
  · intro h
    exact congrArg String.data h
  · intro h
    rw [h]

theorem str_data_eq_nil {s : String} (h : s.data = []) : s = "" := by
  cases s with
  | mk d =>
    rw [show d = ([] : List Char) from h]

/-- Does the line contain the rule separator `" => "`? -/
def hasRuleSep (line : String) : Bool := (findSep line.data " => ".data).isSome

/-- The alternative strings a line's right-hand side yields, when the line
splits into `lhs` and `rhs` at all. -/
def rhsAlternatives (line : String) : Option (List String) :=
  match split line " => " (some 1) with
  | [_, rhs] => some (split rhs " | " none)
  | _ => none

/-- A line without the separator splits into at most one piece, so the
two-name unpacking in `grammar` fails on it. -/
theorem split_arrow_no_sep {line : String} (hfix : pstrip line = line)
    (h : findSep line.data " => ".data = none) :
    ∀ lhs rhs, split line " => " (some 1) ≠ [lhs, rhs] := by
  intro lhs rhs hcontra
  unfold split pySplitSep at hcontra
  rw [pstrip_fix_data hfix] at hcontra
  rw [pySplitSepF] at hcontra
  rw [if_neg (by decide), if_neg (by decide)] at hcontra
  simp only [h] at hcontra
  by_cases hd : line.data = []
  · simp [hd] at hcontra
  · simp [List.filter, hd] at hcontra

/-- A line that does split into `[lhs, rhs]` decomposes around the first
occurrence of the separator, with non-empty raw pieces. -/
theorem split_arrow_two {line lhs rhs : String} (hfix : pstrip line = line)
    (h : split line " => " (some 1) = [lhs, rhs]) :
    ∃ pre post, findSep line.data " => ".data = some (pre, post) ∧
      line.data = pre ++ " => ".data ++ post ∧ pre ≠ [] ∧ post ≠ [] ∧
      lhs = String.mk (pstripL pre) ∧ rhs = String.mk (pstripL post) := by
  unfold split pySplitSep at h
  rw [pstrip_fix_data hfix] at h
  rw [pySplitSepF] at h
  rw [if_neg (by decide), if_neg (by decide)] at h
  rcases hf : findSep line.data " => ".data with _ | ⟨pre, post⟩
  · simp only [hf] at h
    by_cases hd : line.data = []
    · simp [hd] at h
    · simp [List.filter, hd] at h
  · simp only [hf] at h
    rw [show decMax (some 1) = some 0 from rfl] at h
    rw [pySplitSepF_zero] at h
    refine ⟨pre, post, rfl, findSep_eq _ _ _ _ hf, ?_⟩
    by_cases hpre : pre = ([] : List Char) <;> by_cases hpost : post = ([] : List Char) <;>
      simp [hpre, hpost, List.filter] at h
    obtain ⟨h1, h2⟩ := h
    exact ⟨hpre, hpost, h1.symm, h2.symm⟩

/-- The head of a stripped string's character list is not whitespace. -/
theorem head_of_strip_fix {line : String} (hfix : pstrip line = line)
    {c : Char} {cs : List Char} (hl : line.data = c :: cs) : pyIsSpace c = false :=
  strip_fix_head (pstrip_fix_data hfix) hl

/-- Both names produced by `lhs, rhs = split(line, ' => ', 1)` are stripped
and non-empty. -/
theorem split_arrow_props {line lhs rhs : String} (hfix : pstrip line = line)
    (h : split line " => " (some 1) = [lhs, rhs]) :
    pstrip lhs = lhs ∧ lhs ≠ "" ∧ pstrip rhs = rhs ∧ rhs ≠ "" := by
  obtain ⟨pre, post, _, hdec, hpre, hpost, hlhs, hrhs⟩ := split_arrow_two hfix h
  have hlfix := pstrip_fix_data hfix
  have hstripPre : pstripL pre ≠ [] := by
    intro hnil
    have hall := pstripL_nil_all hnil
    cases hpre' : pre with
    | nil => exact hpre hpre'
    | cons c cs =>
      have hc : pyIsSpace c := hall c (by rw [hpre']; exact List.mem_cons_self c cs)
      have hhd : line.data = c :: (cs ++ " => ".data ++ post) := by
        rw [hdec, hpre']; simp
      rw [strip_fix_head hlfix hhd] at hc
      exact absurd hc (by simp)
  have hstripPost : pstripL post ≠ [] := by
    intro hnil
    have hall := pstripL_nil_all hnil
    cases hpost' : post.reverse with
    | nil => exact hpost (by simpa using congrArg List.reverse hpost')
    | cons c cs =>
      have hcmem : c ∈ post := by
        have : c ∈ post.reverse := by rw [hpost']; exact List.mem_cons_self c cs
        simpa using this
      have hc : pyIsSpace c := hall c hcmem
      have hlast : line.data.reverse = c :: (cs ++ (" => ".data.reverse ++ pre.reverse)) := by
        rw [hdec]
        simp only [List.reverse_append, hpost']
        simp
      rw [strip_fix_last hlfix hlast] at hc
      exact absurd hc (by simp)
  refine ⟨?_, ?_, ?_, ?_⟩
  · rw [hlhs]; simp [pstrip, pstripL_idem]
  · rw [hlhs]; intro hc; exact hstripPre (strmk_eq_empty_iff.mp hc)
  · rw [hrhs]; simp [pstrip, pstripL_idem]
  · rw [hrhs]; intro hc; exact hstripPost (strmk_eq_empty_iff.mp hc)

/-- Splitting a stripped, non-empty string on `" | "` yields at least one
alternative: the zero-alternatives error of the specification cannot occur. -/
theorem split_bar_ne_nil {rhs : String} (hfix : pstrip rhs = rhs) (hne : rhs ≠ "") :
    split rhs " | " none ≠ [] := by
  unfold split pySplitSep
  rw [pstrip_fix_data hfix]
  rw [pySplitSepF]
  rw [if_neg (by decide), if_neg (by decide)]
  have hd : rhs.data ≠ [] := by
    intro hc
    exact hne (str_data_eq_nil hc)
  cases hf : findSep rhs.data " | ".data with
  | none => simp [hd]
  | some pp =>
    obtain ⟨pre, post⟩ := pp
    have hpre : pre ≠ [] := by
      intro hc
      subst hc
      have hdec := findSep_eq _ _ _ _ hf
      simp only [List.nil_append] at hdec
      have hc2 : pyIsSpace ' ' = false := head_of_strip_fix hfix (by rw [hdec]; rfl)
      exact absurd hc2 (by decide)
    simp [List.filter, hpre]

/-- Every piece the `split` helper returns is already stripped. -/
theorem split_mem_strip {x text sep : String} {m : Option Nat}
    (h : x ∈ split text sep m) : pstrip x = x := by
  unfold split at h
  obtain ⟨p, _, hp⟩ := List.mem_map.mp h
  rw [← hp]
  simp [pstrip, pstripL_idem]

/-- The lines the grammar compiler iterates over are stripped. -/
theorem glines_strip {desc line : String} (h : line ∈ glines desc) :
    pstrip line = line :=
  split_mem_strip h

/-! ## Dictionary lemmas -/

theorem alookup_dinsert_self (G : List (String × Alts)) (k : String) (v : Alts) :
    alookup (dinsert G k v) k = some v := by
  induction G with
  | nil => simp [dinsert, alookup]
  | cons p G2 ih =>
    obtain ⟨a, b⟩ := p
    rw [dinsert]
    by_cases hak : a = k
    · rw [if_pos hak, alookup, if_pos rfl]
    · rw [if_neg hak, alookup, if_neg hak]
      exact ih

theorem alookup_dinsert_ne (G : List (String × Alts)) (k k' : String) (v : Alts)
    (h : k' ≠ k) : alookup (dinsert G k v) k' = alookup G k' := by
  induction G with
  | nil =>
    simp [dinsert, alookup, Ne.symm h]
  | cons p G2 ih =>
    obtain ⟨a, b⟩ := p
    rw [dinsert]
    by_cases hak : a = k
    · subst hak
      rw [if_pos rfl, alookup, alookup, if_neg (fun hc : a = k' => h hc.symm),
        if_neg (fun hc : a = k' => h hc.symm)]
    · rw [if_neg hak, alookup, alookup]
      by_cases hak' : a = k'
      · rw [if_pos hak', if_pos hak']
      · rw [if_neg hak', if_neg hak']
        exact ih

theorem dinsert_mem : ∀ (G : List (String × Alts)) (k : String) (v : Alts)
    (p : String × Alts), p ∈ dinsert G k v → p ∈ G ∨ p = (k, v) := by
  intro G k v p h
  induction G with
  | nil =>
    rw [dinsert] at h
    right
    simpa using h
  | cons q G2 ih =>
    obtain ⟨a, b⟩ := q
    rw [dinsert] at h
    split at h
    · rcases List.mem_cons.mp h with hp | hp
      · right; exact hp
      · left; exact List.mem_cons_of_mem _ hp
    · rcases List.mem_cons.mp h with hp | hp
      · left; rw [hp]; exact List.mem_cons_self _ _
      · rcases ih hp with hp2 | hp2
        · left; exact List.mem_cons_of_mem _ hp2
        · right; exact hp2

/-- A malformed line (one whose `split` does not yield exactly two names)
anywhere in the line list aborts the whole compilation. -/
theorem buildRules_malformed : ∀ (lines : List String) (G : List (String × Alts))
    (line : String), line ∈ lines →
    (∀ lhs rhs, split line " => " (some 1) ≠ [lhs, rhs]) →
    buildRules G lines = none := by
  intro lines
  induction lines with
  | nil => intro G line h; simp at h
  | cons y ys ih =>
    intro G line hmem hbad
    rw [buildRules]
    rcases List.mem_cons.mp hmem with hy | hy
    · subst hy
      rcases hs : split line " => " (some 1) with _ | ⟨a, _ | ⟨b, _ | ⟨c, t⟩⟩⟩ <;>
        simp only [hs]
      exact absurd hs (hbad a b)
    · rcases hs : split y " => " (some 1) with _ | ⟨a, _ | ⟨b, _ | ⟨c, t⟩⟩⟩ <;>
        simp only [hs]
      exact ih _ line hy hbad

/-- The right-hand side of the last line in `lines` that defines `lhs`
(`None` when no line does).  Searching the tail first mirrors
last-write-wins of the dict insertions. -/
def lastDefRhs : List String → String → Option String
  | [], _ => none
  | line :: rest, lhs =>
    match lastDefRhs rest lhs with
    | some r => some r
    | none =>
      match split line " => " (some 1) with
      | [l1, r] => if l1 = lhs then some r else none
      | _ => none

/-- What a successful compilation stores for each symbol: the alternatives
of the last defining line, atom-split; symbols no line defines keep the
seed table's entry. -/
theorem buildRules_lookup : ∀ (lines : List String) (G rules : List (String × Alts)),
    buildRules G lines = some rules → ∀ lhs,
    alookup rules lhs =
      match lastDefRhs lines lhs with
      | some rhs => some ((split rhs " | " none).map splitWs)
      | none => alookup G lhs := by
  intro lines
  induction lines with
  | nil =>
    intro G rules h lhs
    rw [buildRules] at h
    simp only [Option.some.injEq] at h
    rw [← h, lastDefRhs]
  | cons line rest ih =>
    intro G rules h lhs
    rw [buildRules] at h
    rcases hs : split line " => " (some 1) with _ | ⟨a, _ | ⟨b, _ | ⟨c, t⟩⟩⟩ <;>
      simp only [hs] at h <;> try exact absurd h (by simp)
    have hres := ih _ rules h lhs
    rw [lastDefRhs]
    cases hrest : lastDefRhs rest lhs with
    | some r2 =>
      simp only [hrest] at hres ⊢
      exact hres
    | none =>
      simp only [hrest] at hres ⊢
      simp only [hs]
      by_cases hl : a = lhs
      · subst hl
        rw [hres, alookup_dinsert_self]
        simp
      · simp only [if_neg hl]
        rw [hres, alookup_dinsert_ne _ _ _ _ (fun hc : lhs = a => hl hc.symm)]

/-- A line that splits guarantees its symbol a definition somewhere in the
final table. -/
theorem lastDefRhs_isSome : ∀ (lines : List String) (line lhs rhs : String),
    line ∈ lines → split line " => " (some 1) = [lhs, rhs] →
    (lastDefRhs lines lhs).isSome := by
  intro lines
  induction lines with
  | nil => intro line lhs rhs h; simp at h
  | cons y ys ih =>
    intro line lhs rhs hmem hs
    rw [lastDefRhs]
    cases hrest : lastDefRhs ys lhs with
    | some r2 => simp
    | none =>
      rcases List.mem_cons.mp hmem with hy | hy
      · subst hy
        simp only [hs, if_pos rfl]
        rfl
      · have := ih line lhs rhs hy hs
        rw [hrest] at this
        simp at this

/-- Keys ever inserted by the compiler are stripped and non-empty. -/
theorem buildRules_keys : ∀ (lines : List String) (G rules : List (String × Alts)),
    (∀ line ∈ lines, pstrip line = line) →
    (∀ p ∈ G, pstrip p.1 = p.1 ∧ p.1 ≠ "") →
    buildRules G lines = some rules →
    ∀ p ∈ rules, pstrip p.1 = p.1 ∧ p.1 ≠ "" := by
  intro lines
  induction lines with
  | nil =>
    intro G rules _ hG h
    rw [buildRules] at h
    simp only [Option.some.injEq] at h
    rw [← h]
    exact hG
  | cons line rest ih =>
    intro G rules hlines hG h
    rw [buildRules] at h
    rcases hs : split line " => " (some 1) with _ | ⟨a, _ | ⟨b, _ | ⟨c, t⟩⟩⟩ <;>
      simp only [hs] at h <;> try exact absurd h (by simp)
    refine ih _ rules (fun l hl => hlines l (List.mem_cons_of_mem _ hl)) ?_ h
    intro p hp
    rcases dinsert_mem _ _ _ _ hp with hp2 | hp2
    · exact hG p hp2
    · obtain ⟨h1, h2, _, _⟩ :=
        split_arrow_props (hlines line (List.mem_cons_self _ _)) hs
      rw [hp2]
      exact ⟨h1, h2⟩

/-! ## Convergence relations

The fuel only cuts off non-termination; the fuel-independent value of a
call is what the claims speak about. -/

/-- `parse_atom(atom, text)` returns `r` (at some sufficient recursion
depth). -/
def AtomVal (g : PGrammar) (atom text : String) (r : PTree × Option String) : Prop :=
  ∃ f, parse_atom f g atom text = some r

/-- `parse_sequence(s, text)` returns `r`. -/
def SeqVal (g : PGrammar) (s : List String) (text : String)
    (r : PTree × Option String) : Prop :=
  ∃ f, parse_sequence f g s text = some r

theorem lookupAlts_of_rules {g : PGrammar} {atom : String} {as : Alts}
    (hk : alookup g.rules atom = some as) (hsp : atom ≠ " ") :
    lookupAlts g atom = some as := by
  rw [lookupAlts, if_neg hsp, hk]

/-- The alternatives loop reports `Fail` only after every alternative's
sequence parse reported `Fail`. -/
theorem tryAlts_fail_all : ∀ (f : Nat) (g : PGrammar) (atom : String) (as : Alts)
    (text : String), runP f g (.alts atom as text) = some Fail →
    ∀ A ∈ as, ∃ f2, runP f2 g (.seq A text) = some Fail := by
  intro f
  induction f with
  | zero => intro g atom as text h; simp [runP] at h
  | succ F IH =>
    intro g atom as text h A hA
    match as with
    | [] => simp at hA
    | alt :: rest =>
      rw [runP] at h
      split at h
      · exact absurd h (by simp)
      · rename_i fst heq
        have hfst : fst = PTree.pynone := runP_none_rem F g _ fst heq
        rcases List.mem_cons.mp hA with hA1 | hA1
        · subst hA1
          refine ⟨F, ?_⟩
          rw [heq, hfst]
          rfl
        · exact IH g atom rest text h A hA1
      · rename_i tree rem heq
        split at h
        · simp [Fail] at h
        · exact absurd h (by simp)

/-- Conversely, if every alternative's sequence parse fails, the loop
reports `Fail`. -/
theorem tryAlts_all_fail : ∀ (as : Alts) (g : PGrammar) (atom text : String),
    (∀ A ∈ as, ∃ f2, runP f2 g (.seq A text) = some Fail) →
    ∃ f, runP f g (.alts atom as text) = some Fail := by
  intro as
  induction as with
  | nil => intro g atom text _; exact ⟨1, by rw [runP]⟩
  | cons alt rest ih =>
    intro g atom text h
    obtain ⟨f1, h1⟩ := h alt (List.mem_cons_self _ _)
    obtain ⟨f2, h2⟩ := ih g atom text (fun A hA => h A (List.mem_cons_of_mem _ hA))
    refine ⟨max f1 f2 + 1, ?_⟩
    rw [runP]
    rw [runP_mono (le_max_left f1 f2) _ _ _ h1]
    exact runP_mono (le_max_right f1 f2) _ _ _ h2

/-- The first alternative whose sequence succeeds settles the result. -/
theorem tryAlts_head_succ {f : Nat} {g : PGrammar} {atom : String} {A : List String}
    {rest : Alts} {text : String} {l : List PTree} {rem : String}
    (h : runP f g (.seq A text) = some (.list l, some rem)) :
    runP (f + 1) g (.alts atom (A :: rest) text) =
      some (.list (.str atom :: l), some rem) := by
  rw [runP, h]

/-- Any result of the alternatives loop whose head alternative succeeds is
the head's wrapped result — the other alternatives cannot influence it. -/
theorem tryAlts_head_succ_det {f f2 : Nat} {g : PGrammar} {atom : String}
    {A : List String} {rest : Alts} {text : String} {l : List PTree} {rem : String}
    {r : PTree × Option String}
    (h : runP f g (.seq A text) = some (.list l, some rem))
    (h2 : runP f2 g (.alts atom (A :: rest) text) = some r) :
    r = (.list (.str atom :: l), some rem) :=
  runP_det h2 (tryAlts_head_succ h)

/-! ## The threading relation of `parse_sequence` -/

/-- `parse_sequence` iterates the atoms of a sequence left to right: each
atom is parsed at the remainder its predecessor left, trees collect in
atom order, and the last remainder is the sequence's. -/
inductive Threads (g : PGrammar) : List String → String → List PTree → String → Prop where
  | nil : ∀ text, Threads g [] text [] text
  | cons : ∀ atom rest text tr mid ts fin,
      AtomVal g atom text (tr, some mid) →
      Threads g rest mid ts fin →
      Threads g (atom :: rest) text (tr :: ts) fin

theorem runP_seq_threads : ∀ (f : Nat) (g : PGrammar) (s : List String)
    (text : String) (tr : PTree) (fin : String),
    runP f g (.seq s text) = some (tr, some fin) →
    ∃ ts, tr = PTree.list ts ∧ Threads g s text ts fin := by
  intro f
  induction f with
  | zero => intro g s text tr fin h; simp [runP] at h
  | succ F IH =>
    intro g s text tr fin h
    match s with
    | [] =>
      rw [runP] at h
      simp only [Option.some.injEq, Prod.mk.injEq] at h
      obtain ⟨h1, h2⟩ := h
      exact ⟨[], h1.symm, by rw [← h2]; exact .nil text⟩
    | atom :: rest =>
      rw [runP] at h
      split at h
      · exact absurd h (by simp)
      · simp [Fail] at h
      · rename_i tree t2 heq
        split at h
        · exact absurd h (by simp)
        · simp [Fail] at h
        · rename_i l2 rem heq2
          split at h
          · rename_i l
            simp only [Option.some.injEq, Prod.mk.injEq] at h
            obtain ⟨h1, h2⟩ := h
            obtain ⟨ts, hts, hthreads⟩ := IH g rest t2 (PTree.list l) rem heq2
            have hl : l = ts := by injection hts
            subst hl
            refine ⟨tree :: l, h1.symm, ?_⟩
            rw [← h2]
            exact .cons atom rest text tree t2 l rem ⟨F, heq⟩ hthreads
          · exact absurd h (by simp)

theorem threads_runP_seq {g : PGrammar} {s : List String} {text : String}
    {ts : List PTree} {fin : String} (h : Threads g s text ts fin) :
    ∃ f, runP f g (.seq s text) = some (.list ts, some fin) := by
  induction h with
  | nil text => exact ⟨1, by rw [runP]⟩
  | cons atom rest text tr mid ts2 fin2 ha _ ih =>
    obtain ⟨f1, h1⟩ := ha
    obtain ⟨f2, h2⟩ := ih
    refine ⟨max f1 f2 + 1, ?_⟩
    rw [runP]
    simp only [runP_mono (le_max_left f1 f2) _ _ _ h1]
    simp only [runP_mono (le_max_right f1 f2) _ _ _ h2]

/-- Fail-fast decomposition: a `Fail` of `parse_sequence` pinpoints a first
failing atom after a successfully threaded prefix. -/
theorem runP_seq_fail : ∀ (f : Nat) (g : PGrammar) (s : List String) (text : String),
    runP f g (.seq s text) = some Fail →
    ∃ pre A post ts mid, s = pre ++ A :: post ∧ Threads g pre text ts mid ∧
      AtomVal g A mid Fail := by
  intro f
  induction f with
  | zero => intro g s text h; simp [runP] at h
  | succ F IH =>
    intro g s text h
    match s with
    | [] =>
      rw [runP] at h
      simp [Fail] at h
    | atom :: rest =>
      rw [runP] at h
      split at h
      · exact absurd h (by simp)
      · rename_i fst heq
        have hfst : fst = PTree.pynone := runP_none_rem F g _ fst heq
        subst hfst
        exact ⟨[], atom, rest, [], text, rfl, .nil text, ⟨F, heq⟩⟩
      · rename_i tree t2 heq
        split at h
        · exact absurd h (by simp)
        · rename_i fst2 heq2
          have hfst2 : fst2 = PTree.pynone := runP_none_rem F g _ fst2 heq2
          subst hfst2
          obtain ⟨pre, A, post, ts, mid, hdec, hthreads, hfail⟩ :=
            IH g rest t2 heq2
          exact ⟨atom :: pre, A, post, tree :: ts, mid, by rw [hdec]; rfl,
            .cons atom pre text tree t2 ts mid ⟨F, heq⟩ hthreads, hfail⟩
        · rename_i l2 rem heq2
          split at h
          · simp [Fail] at h
          · exact absurd h (by simp)

/-- Converse of fail-fast: a failing atom after a threaded prefix makes the
whole sequence fail. -/
theorem failfast_runP_seq {g : PGrammar} {pre : List String} {text : String}
    {ts : List PTree} {mid : String} (hthreads : Threads g pre text ts mid) :
    ∀ (A : String) (post : List String), AtomVal g A mid Fail →
    ∃ f, runP f g (.seq (pre ++ A :: post) text) = some Fail := by
  induction hthreads with
  | nil text2 =>
    intro A post hfail
    obtain ⟨f1, h1⟩ := hfail
    refine ⟨f1 + 1, ?_⟩
    rw [List.nil_append, runP]
    rw [show parse_atom f1 g A text2 = runP f1 g (.atm A text2) from rfl] at h1
    rw [h1]
    rfl
  | cons atom rest text2 tr mid2 ts2 fin2 ha _ ih =>
    intro A post hfail
    obtain ⟨f1, h1⟩ := ha
    obtain ⟨f2, h2⟩ := ih A post hfail
    refine ⟨max f1 f2 + 1, ?_⟩
    rw [List.cons_append, runP]
    simp only [runP_mono (le_max_left f1 f2) _ _ _ h1]
    simp only [runP_mono (le_max_right f1 f2) _ _ _ h2]
    rfl

/-! ## Memoization transparency -/

/-- Soundness of a memo cache: every stored entry is a value the
memoization-free interpreter computes for that key. -/
def CacheOK (g : PGrammar) (k : MCache) : Prop :=
  ∀ atom text r, clookup k atom text = some r →
    ∃ f, runP f g (.atm atom text) = some r

theorem cacheOK_nil (g : PGrammar) : CacheOK g [] := by
  intro atom text r h
  simp [clookup] at h

theorem cacheOK_cons {g : PGrammar} {k : MCache} (atom text : String)
    (r : PTree × Option String) (hk : CacheOK g k)
    (hr : ∃ f, runP f g (.atm atom text) = some r) :
    CacheOK g ((atom, text, r) :: k) := by
  intro a t r' h
  rw [clookup] at h
  split at h
  · rename_i hcond
    simp only [Bool.and_eq_true, decide_eq_true_eq] at hcond
    obtain ⟨f0, hf0⟩ := hr
    obtain ⟨h1, h2⟩ := hcond
    subst h1; subst h2
    simp only [Option.some.injEq] at h
    exact ⟨f0, h ▸ hf0⟩
  · exact hk a t r' h

/-- Whatever the memoization-free interpreter computes, the memoized one
computes as well, starting from any sound cache and leaving a sound cache. -/
theorem mrunP_complete : ∀ (f : Nat) (g : PGrammar) (c : PCmd)
    (r : PTree × Option String) (k : MCache), CacheOK g k →
    runP f g c = some r → ∃ k2, mrunP f g c k = some (r, k2) ∧ CacheOK g k2 := by
  intro f
  induction f with
  | zero => intro g c r k hk h; simp [runP] at h
  | succ F IH =>
    intro g c r k hk h
    match c with
    | .atm atom text =>
      have hr1 : runP (F + 1) g (.atm atom text) = some r := h
      rw [runP] at h
      cases hc : clookup k atom text with
      | some r0 =>
        obtain ⟨f0, hf0⟩ := hk atom text r0 hc
        have : r0 = r := runP_det hf0 hr1
        subst this
        exact ⟨k, by rw [mrunP]; simp only [hc], hk⟩
      | none =>
        split at h
        · rename_i as heq
          obtain ⟨k2, hm, hk2⟩ := IH g _ r k hk h
          refine ⟨(atom, text, r) :: k2, ?_, ?_⟩
          · rw [mrunP]; simp only [hc, heq, hm]
          · exact cacheOK_cons _ _ _ hk2 ⟨F + 1, hr1⟩
        · rename_i heq
          refine ⟨(atom, text, r) :: k, ?_, ?_⟩
          · rw [mrunP]; simp only [hc, heq, h, Option.map_some']
          · exact cacheOK_cons _ _ _ hk ⟨F + 1, hr1⟩
    | .alts atom as text =>
      match as with
      | [] =>
        rw [runP] at h
        simp only [Option.some.injEq] at h
        exact ⟨k, by rw [mrunP]; rw [h], hk⟩
      | alt :: rest =>
        rw [runP] at h
        split at h
        · exact absurd h (by simp)
        · rename_i heq
          obtain ⟨k2, hm2, hk2⟩ := IH g _ _ k hk heq
          obtain ⟨k3, hm3, hk3⟩ := IH g _ r k2 hk2 h
          exact ⟨k3, by rw [mrunP]; simp only [hm2]; exact hm3, hk3⟩
        · rename_i tree rem heq
          obtain ⟨k2, hm2, hk2⟩ := IH g _ _ k hk heq
          refine ⟨k2, ?_, hk2⟩
          rw [mrunP]; simp only [hm2]
          split at h
          · rename_i l
            simp only [Option.some.injEq] at h
            rw [← h]
          · exact absurd h (by simp)
    | .seq s text =>
      match s with
      | [] =>
        rw [runP] at h
        simp only [Option.some.injEq] at h
        exact ⟨k, by rw [mrunP]; rw [h], hk⟩
      | atom :: rest =>
        rw [runP] at h
        split at h
        · exact absurd h (by simp)
        · rename_i heq
          obtain ⟨k2, hm2, hk2⟩ := IH g _ _ k hk heq
          simp only [Option.some.injEq] at h
          exact ⟨k2, by rw [mrunP]; simp only [hm2]; rw [h], hk2⟩
        · rename_i tree t2 heq
          obtain ⟨k2, hm2, hk2⟩ := IH g _ _ k hk heq
          split at h
          · exact absurd h (by simp)
          · rename_i heq2
            obtain ⟨k3, hm3, hk3⟩ := IH g _ _ k2 hk2 heq2
            simp only [Option.some.injEq] at h
            exact ⟨k3, by rw [mrunP]; simp only [hm2, hm3]; rw [h], hk3⟩
          · rename_i l2 rem heq2
            obtain ⟨k3, hm3, hk3⟩ := IH g _ _ k2 hk2 heq2
            refine ⟨k3, ?_, hk3⟩
            rw [mrunP]; simp only [hm2, hm3]
            split at h
            · rename_i l
              simp only [Option.some.injEq] at h
              rw [← h]
            · exact absurd h (by simp)

/-! ## The claims -/

/-- Claim C1.  The spec says the memo wrapper reacts to a key-construction
(`TypeError`, unhashable argument) failure by falling back to direct,
uncached evaluation, returning what the wrapped function yields on the same
arguments.  The code's fallback is `return f(args)` — `f` applied to the
single argument `args` (the 2-tuple itself) instead of `f(*args)` — so for
the two-parameter `parse_atom` it raises `TypeError` (arity mismatch)
instead of returning `f(atom, text)`: at the failing input
`atom = []` (a Python list, unhashable), `text = "txt"`, the wrapped call
errors while the direct call succeeds.  This contradicts the documented
intent (a defensive fallback to uncached evaluation), so it is a code bug:
the fallback should read `f(*args)`. -/
theorem C1_memo_typeerror_fallback_bug :
    memoCall (binFun (fun a b => PyVal.vtuple [a, b])) []
      [PyVal.vlist [], PyVal.vstr "txt"] = Except.error ()
    ∧ binFun (fun a b => PyVal.vtuple [a, b]) [PyVal.vlist [], PyVal.vstr "txt"]
      = Except.ok (PyVal.vtuple [PyVal.vlist [], PyVal.vstr "txt"]) :=
  ⟨rfl, rfl⟩

/-- Claim C2.  For a non-terminal (an atom with a rule-table entry),
`parse_atom` runs the alternatives loop on the grammar's alternatives in
declaration order; when the first alternative's sequence succeeds with
children `l` and remainder `rem`, the result is
`([atom] ++ l, rem)` — first-match-wins: every result the call can compute
equals the result of the loop run on that alternative alone, whatever the
other alternatives would do; and the call returns `Fail = (None, None)`
exactly when every alternative's sequence parse fails. -/
theorem C2_ordered_choice (g : PGrammar) (atom : String) (as : Alts) (text : String)
    (hk : alookup g.rules atom = some as) (hsp : atom ≠ " ") :
    (∀ f, parse_atom (f + 1) g atom text = tryAlts f g atom as text)
    ∧ (∀ f A rest l rem, as = A :: rest →
        parse_sequence f g A text = some (PTree.list l, some rem) →
        parse_atom (f + 2) g atom text =
          some (PTree.list (PTree.str atom :: l), some rem)
        ∧ ∀ r, AtomVal g atom text r ↔ ∃ f2, tryAlts f2 g atom [A] text = some r)
    ∧ (AtomVal g atom text Fail ↔ ∀ A ∈ as, SeqVal g A text Fail) := by
  have halts := lookupAlts_of_rules hk hsp
  refine ⟨?_, ?_, ?_⟩
  · intro f
    show runP (f + 1) g (.atm atom text) = runP f g (.alts atom as text)
    rw [runP, halts]
  · intro f A rest l rem hAs hseq
    subst hAs
    have hwrap := @tryAlts_head_succ f g atom A rest text l rem hseq
    have hwrap1 := @tryAlts_head_succ f g atom A [] text l rem hseq
    have hmain : parse_atom (f + 2) g atom text =
        some (PTree.list (PTree.str atom :: l), some rem) := by
      show runP (f + 2) g (.atm atom text) = _
      rw [runP, halts]
      exact hwrap
    refine ⟨hmain, ?_⟩
    intro r
    constructor
    · rintro ⟨fr, hfr⟩
      match fr with
      | 0 => simp [parse_atom, runP] at hfr
      | fr + 1 =>
        rw [show parse_atom (fr + 1) g atom text =
            runP (fr + 1) g (.atm atom text) from rfl, runP, halts] at hfr
        have hr := tryAlts_head_succ_det hseq hfr
        exact ⟨f + 1, by rw [hr]; exact hwrap1⟩
    · rintro ⟨f2, h2⟩
      have hr := @tryAlts_head_succ_det f f2 g atom A [] text l rem r hseq h2
      exact ⟨f + 2, by rw [hr]; exact hmain⟩
  · constructor
    · rintro ⟨fr, hfr⟩
      match fr with
      | 0 => simp [parse_atom, runP] at hfr
      | fr + 1 =>
        rw [show parse_atom (fr + 1) g atom text =
            runP (fr + 1) g (.atm atom text) from rfl, runP, halts] at hfr
        intro A hA
        exact tryAlts_fail_all fr g atom as text hfr A hA
    · intro hall
      obtain ⟨f, hf⟩ := tryAlts_all_fail as g atom text hall
      refine ⟨f + 1, ?_⟩
      rw [show parse_atom (f + 1) g atom text =
          runP (f + 1) g (.atm atom text) from rfl, runP, halts]
      exact hf

theorem C2_ordered_choice_witness :
    parse_atom 31 JSON "value" "-123.456e+789" =
      tryAlts 30 JSON "value" [["object"], ["array"], ["number"], ["string"]]
        "-123.456e+789" :=
  (C2_ordered_choice JSON "value" [["object"], ["array"], ["number"], ["string"]]
    "-123.456e+789" rfl (by decide)).1 30

/-- Claim C3.  For a terminal atom (no rule-table entry), `parse_atom`
matches the pattern built as the grammar's whitespace pattern followed by
`(`, the atom and `)`, anchored at the start of the text; on a match it
returns group 1 (the slice that excludes the leading whitespace) together
with the suffix of the text from the total match end (so the leading
whitespace is consumed), and on no match it returns `(None, None)`. -/
theorem C3_terminal_match (f : Nat) (g : PGrammar) (atom text : String)
    (hk : alookup g.rules atom = none) (hsp : atom ≠ " ") :
    parse_atom (f + 1) g atom text =
      match reFirst (g.ws ++ "(" ++ atom ++ ")") text with
      | none => none
      | some none => some Fail
      | some (some (e, gs)) =>
        some ((match glookup gs 1 with
               | some (a, b) => PTree.str (sliceStr text a b)
               | none => PTree.pynone), some (text.drop e)) := by
  show runP (f + 1) g (.atm atom text) = _
  rw [runP, show lookupAlts g atom = none from by rw [lookupAlts, if_neg hsp, hk]]
  rfl

theorem C3_terminal_match_witness :
    parse_atom 1 JSON "[-+]?[0-9]+" "-123.456e+789" =
      some (PTree.str "-123", some ".456e+789") := by
  have h := C3_terminal_match 0 JSON "[-+]?[0-9]+" "-123.456e+789" rfl (by decide)
  rw [h]
  rfl

/-- Claim C4.  Memoization is transparent: whenever the interpreter without
the memo (`parse`, built on `runP`) returns a result — which embeds
termination, the guarantee the no-left-recursion side condition gives the
source — the memoized interpreter (`memo_parse`, the cache of the source's
`@memo`-wrapped `parse_atom` threaded explicitly, fresh per call) returns a
structurally identical `(tree, remainder)` pair. -/
theorem C4_memoization_transparent (f : Nat) (g : PGrammar) (s t : String)
    (r : PTree × Option String) (h : parse f s t g = some r) :
    ∃ k, memo_parse f s t g = some (r, k) := by
  obtain ⟨k2, hm, _⟩ := mrunP_complete f g (.atm s t) r [] (cacheOK_nil g) h
  exact ⟨k2, hm⟩

theorem C4_memoization_transparent_witness :
    ∃ k, memo_parse 64 "value" "-123.456e+789" JSON =
      some ((PTree.list [PTree.str "value", PTree.list [PTree.str "number",
        PTree.list [PTree.str "int", PTree.str "-123"],
        PTree.list [PTree.str "frac", PTree.str ".456"],
        PTree.list [PTree.str "exp", PTree.str "e+789"]]], some ""), k) :=
  C4_memoization_transparent 64 JSON "value" "-123.456e+789" _ rfl

/-- Claim C5.  `parse_sequence` parses the atoms of a sequence in order,
threading each atom's remainder into the next (the `Threads` relation):
a success returns exactly the list of the atoms' trees in order with the
final remainder, and a `Fail = (None, None)` (no partial result) happens
exactly when some atom fails after a successfully threaded prefix. -/
theorem C5_sequence_threading (g : PGrammar) (s : List String) (text : String) :
    (∀ tr fin, SeqVal g s text (tr, some fin) ↔
      ∃ ts, tr = PTree.list ts ∧ Threads g s text ts fin)
    ∧ (SeqVal g s text Fail ↔
      ∃ pre A post ts mid, s = pre ++ A :: post ∧ Threads g pre text ts mid ∧
        AtomVal g A mid Fail) := by
  constructor
  · intro tr fin
    constructor
    · rintro ⟨f, hf⟩
      exact runP_seq_threads f g s text tr fin hf
    · rintro ⟨ts, htr, hthreads⟩
      subst htr
      exact threads_runP_seq hthreads
  · constructor
    · rintro ⟨f, hf⟩
      exact runP_seq_fail f g s text hf
    · rintro ⟨pre, A, post, ts, mid, hdec, hthreads, hfail⟩
      subst hdec
      exact failfast_runP_seq hthreads A post hfail

/-- Claim C6.  A description line that lacks the separator `" => "` (or
whose right-hand side would yield zero alternatives — a case proved
impossible inside this proof) aborts `grammar` with an error: no grammar is
returned at all. -/
theorem C6_malformed_grammar_line (desc ws : String)
    (h : ∃ line ∈ glines desc,
      hasRuleSep line = false ∨ rhsAlternatives line = some []) :
    grammar desc ws = none := by
  obtain ⟨line, hmem, hbad⟩ := h
  have hfix := glines_strip hmem
  have hnosplit : ∀ lhs rhs, split line " => " (some 1) ≠ [lhs, rhs] := by
    rcases hbad with hbad | hbad
    · intro lhs rhs
      apply split_arrow_no_sep hfix
      rw [hasRuleSep] at hbad
      cases hx : findSep line.data " => ".data with
      | none => rfl
      | some p => rw [hx] at hbad; simp at hbad
    · exfalso
      rw [rhsAlternatives] at hbad
      split at hbad
      · rename_i lhs rhs hs
        simp only [Option.some.injEq] at hbad
        obtain ⟨_, _, hstrip, hne⟩ := split_arrow_props hfix hs
        exact split_bar_ne_nil hstrip hne hbad
      · exact absurd hbad (by simp)
  rw [grammar, buildRules_malformed (glines desc) [] line hmem hnosplit]
  rfl

theorem C6_malformed_grammar_line_witness : grammar "value" "\\s*" = none :=
  C6_malformed_grammar_line "value" "\\s*"
    ⟨"value", by rw [show glines "value" = ["value"] from rfl]; exact List.mem_cons_self _ _,
      Or.inl rfl⟩

/-- Claim C7.  Every left-hand-side symbol of a line of a successfully
compiled description is a key of the grammar; its stored alternatives are
those of the last line defining it (later lines silently overwrite earlier
ones), with one entry per `" | "`-separated group of that line's right-hand
side; each line is split at the first `" => "` only (`maxsplit` 1, visible
in the hypothesis and in `grammar` itself). -/
theorem C7_compile_round_trip (desc ws : String) (G : PGrammar)
    (hg : grammar desc ws = some G) (line lhs rhs : String)
    (hline : line ∈ glines desc)
    (hsplit : split line " => " (some 1) = [lhs, rhs]) :
    ∃ rhsLast, lastDefRhs (glines desc) lhs = some rhsLast ∧
      alookup G.rules lhs = some ((split rhsLast " | " none).map splitWs) ∧
      ((split rhsLast " | " none).map splitWs).length =
        (split rhsLast " | " none).length := by
  rw [grammar] at hg
  cases hb : buildRules [] (glines desc) with
  | none => rw [hb] at hg; simp at hg
  | some rules =>
    rw [hb] at hg
    simp only [Option.map_some', Option.some.injEq] at hg
    have hlook := buildRules_lookup (glines desc) [] rules hb lhs
    have hsome := lastDefRhs_isSome (glines desc) line lhs rhs hline hsplit
    cases hlast : lastDefRhs (glines desc) lhs with
    | none => rw [hlast] at hsome; simp at hsome
    | some rhsLast =>
      refine ⟨rhsLast, rfl, ?_, by simp⟩
      rw [← hg]
      simp only [hlast] at hlook
      exact hlook

theorem C7_compile_round_trip_witness :
    ∃ rhsLast, lastDefRhs (glines "S => a | b\nS => c") "S" = some rhsLast ∧
      alookup (PGrammar.mk "\\s*" [("S", [["c"]])]).rules "S" =
        some ((split rhsLast " | " none).map splitWs) ∧
      ((split rhsLast " | " none).map splitWs).length =
        (split rhsLast " | " none).length :=
  C7_compile_round_trip "S => a | b\nS => c" "\\s*" (PGrammar.mk "\\s*" [("S", [["c"]])])
    rfl "S => a | b" "S" "a | b"
    (by rw [show glines "S => a | b\nS => c" = ["S => a | b", "S => c"] from rfl]
        exact List.mem_cons_self _ _)
    rfl

/-- Claim C8, amended.  As claimed, parse failure is signalled only by the
normal return value `(None, None)`, never an exception, and propagated
unchanged: at every level (`parse_atom`, the alternatives loop,
`parse_sequence`, and hence `parse`), whenever the remainder component is
`None` the whole pair is exactly `Fail`.  The claim's converse — on success
both components are non-`None` — fails: a terminal atom whose spliced
pattern can match without capture group 1 participating (atom `x)|(y`)
yields `(None, remainder)` with a non-`None` remainder, see the
counterexample. -/
theorem C8_failure_uniform (f : Nat) (g : PGrammar) (c : PCmd)
    (t : PTree) (rem : Option String) (h : runP f g c = some (t, rem))
    (hrem : rem = none) : (t, rem) = Fail := by
  subst hrem
  rw [runP_none_rem f g c t h]
  rfl

theorem C8_failure_uniform_witness :
    ((PTree.pynone, (none : Option String)) : PTree × Option String) = Fail :=
  C8_failure_uniform 64 JSON (.atm "value" "x") PTree.pynone none rfl rfl

/-- Claim C8, counterexample.  Compiling the one-line grammar
`S => x)|(y` succeeds; parsing the start symbol `x)|(y` (a terminal: it is
not a key of the grammar) against the text `"y"` matches the spliced
pattern `\s*(x)|(y)` via its second top-level alternative, in which group 1
does not participate: `parse` returns `(None, "")` — the components are
not `None` together, refuting the claim as stated. -/
theorem C8_counterexample :
    grammar "S => x)|(y" "\\s*" = some (PGrammar.mk "\\s*" [("S", [["x)|(y"]])])
    ∧ parse 1 "x)|(y" "y" (PGrammar.mk "\\s*" [("S", [["x)|(y"]])]) =
        some (PTree.pynone, some "")
    ∧ ¬((PTree.pynone = PTree.pynone) ↔ ((some "" : Option String) = none)) :=
  ⟨rfl, rfl, by simp⟩

/-- Claim C9.  Parsing `'-123.456e+789'` with start symbol `value` against
the compiled JSON grammar succeeds, consumes the whole input (empty
remainder) and produces exactly the tree
`['value', ['number', ['int','-123'], ['frac','.456'], ['exp','e+789']]]`;
the second conjunct pins `JSON` to the actual output of `grammar` on the
fixture description. -/
theorem C9_number_end_to_end :
    json_parse 64 "-123.456e+789" =
      some (PTree.list [PTree.str "value", PTree.list [PTree.str "number",
        PTree.list [PTree.str "int", PTree.str "-123"],
        PTree.list [PTree.str "frac", PTree.str ".456"],
        PTree.list [PTree.str "exp", PTree.str "e+789"]]], some "")
    ∧ grammar json_description "\\s*" = some JSON :=
  ⟨rfl, rfl⟩

/-- Claim C10.  The compiled grammar maps the reserved one-space key to the
caller-supplied whitespace pattern (the `ws` field of the embedding), and
no description line can ever shadow it: every left-hand side the line
splitter produces is stripped and non-empty, hence never the one-space
string. -/
theorem C10_reserved_whitespace_key (desc ws : String) (G : PGrammar)
    (hg : grammar desc ws = some G) :
    G.ws = ws ∧ ∀ p ∈ G.rules, pstrip p.1 = p.1 ∧ p.1 ≠ "" ∧ p.1 ≠ " " := by
  rw [grammar] at hg
  cases hb : buildRules [] (glines desc) with
  | none => rw [hb] at hg; simp at hg
  | some rules =>
    rw [hb] at hg
    simp only [Option.map_some', Option.some.injEq] at hg
    constructor
    · rw [← hg]
    · intro p hp
      have hrules : p ∈ rules := by
        rw [← hg] at hp
        exact hp
      have hgood := buildRules_keys (glines desc) [] rules
        (fun l hl => glines_strip hl) (by simp) hb p hrules
      refine ⟨hgood.1, hgood.2, ?_⟩
      intro hsp
      have h1 := hgood.1
      rw [hsp] at h1
      rw [show pstrip " " = "" from rfl] at h1
      exact absurd h1 (by decide)

theorem C10_reserved_whitespace_key_witness :
    JSON.ws = "\\s*" ∧ ∀ p ∈ JSON.rules, pstrip p.1 = p.1 ∧ p.1 ≠ "" ∧ p.1 ≠ " " :=
  C10_reserved_whitespace_key json_description "\\s*" JSON rfl

end JsonParser
